import Mathlib

/-!
Verification development for the PEPit example corpus (accelerated proximal
point for monotone inclusions, and the gradient-descent Lyapunov potential
example) together with the PEP engine they drive.

The two files under scrutiny are
`PEPit/examples/e_monotone_inclusions/accelerated_proximal_point.py`
(function `wc_ppm`) and
`PEPit/examples/potential_functions/gradient_descent_lyapunov_1.py`
(function `wc_gradient_descent_lyapunov_1`).

The PEP engine itself (`PEPit.pep.PEP`, `MonotoneOperator`,
`SmoothConvexFunction`, `proximal_step`) is not part of the repository
snapshot; every definition standing in for it carries a doc comment starting
with `Modelled from the spec:` and follows the specification text
(`spec.md`, sections 3-7) word by word.
-/

open RealInnerProductSpace

/-! ## Symbolic Point algebra and Gram-matrix lowering

Modelled from the spec, section 3 ("Point") and 4.2: a Point is a linear
combination of fundamental basis atoms, i.e. a finitely supported map from
atom identifiers to real coefficients; an inner product of two Points lowers
to coefficients on Gram-matrix cells, one cell per unordered pair of atoms. -/

/-- Modelled from the spec: a symbolic `Point` is "a mapping from
basis-point-id → scalar coefficient expressing it as a linear combination of
fundamental basis points" (spec section 3). -/
abbrev Pt : Type := ℕ →₀ ℝ

/-- Modelled from the spec: a fundamental basis point ("atom"), created either
as a problem initial point or as an oracle output (spec section 3). -/
noncomputable def atom (i : ℕ) : Pt := Finsupp.single i 1

/-- Modelled from the spec: the lowering of the inner product of two Points to
Gram-matrix cells, "expanded bilinearly: ⟨Σ aᵢ pᵢ, Σ bⱼ pⱼ⟩ = Σᵢⱼ aᵢbⱼ
G[pᵢ,pⱼ]", with "every inner product of two Points lowered to exactly one
Gram-matrix entry (symmetric: entry(i,j) ≡ entry(j,i))" (spec sections 3,
4.2). A cell is an unordered pair of atoms; an off-diagonal cell `{i,j}`
therefore collects the two ordered contributions `aᵢbⱼ + aⱼbᵢ`. -/
noncomputable def gramLower (p q : Pt) : Sym2 ℕ → ℝ :=
  Sym2.lift ⟨fun i j => if i = j then p i * q i else p i * q j + p j * q i, by
    intro a b
    by_cases h : a = b
    · subst h; simp
    · simp only [if_neg h, if_neg (Ne.symm h)]; ring⟩

lemma gramLower_mk (p q : Pt) (i j : ℕ) :
    gramLower p q (Sym2.mk (i, j)) =
      if i = j then p i * q i else p i * q j + p j * q i := by
  simp [gramLower]

/-! ## The iterate sequences of `wc_ppm`

These translate the array program of `wc_ppm` (source lines 77-82):

    x = [x0 for _ in range(n + 1)]
    y = [x0 for _ in range(n + 1)]
    for i in range(0, n - 1):
        x[i + 1], _, _ = proximal_step(y[i + 1], A, alpha)
        y[i + 2] = x[i + 1] + i / (i + 2) * (x[i + 1] - x[i]) - i / (i + 2) * (x[i] - y[i])
    x[n], _, _ = proximal_step(y[n], A, alpha)

Each array cell is written at most once and read only after being written, so
the arrays define the recurrences below: `y 0 = y 1 = x0`; each proximal step
returns `x k = y k - α • g k` where `g k` is the fresh oracle-output atom of
the `k`-th call (spec section 4.3, resolvent construction); and `y (j+2)` is
the loop's affine combination, in which `x j` denotes the initial cell value
`x0` when `j = 0`. The definitions are parametric in the carrier module so
that they serve both the symbolic Point algebra and the analytic model. -/

variable {M : Type} [AddCommGroup M] [Module ℝ M]

/-- Iterate sequence `y` of `wc_ppm`, translated from source lines 77-81. -/
noncomputable def ySeq (α : ℝ) (x0 : M) (g : ℕ → M) : ℕ → M
  | 0 => x0
  | 1 => x0
  | (j+2) =>
      (ySeq α x0 g (j+1) - α • g (j+1))
        + ((j : ℝ)/((j : ℝ)+2)) • ((ySeq α x0 g (j+1) - α • g (j+1))
            - (if j = 0 then x0 else ySeq α x0 g j - α • g j))
        - ((j : ℝ)/((j : ℝ)+2)) • ((if j = 0 then x0 else ySeq α x0 g j - α • g j)
            - ySeq α x0 g j)

/-- Iterate sequence `x` of `wc_ppm`: `x 0` is the initial point and
`x k = y k - α • g k` is the output of the `k`-th proximal step
(source lines 77, 80, 82). -/
noncomputable def xSeq (α : ℝ) (x0 : M) (g : ℕ → M) : ℕ → M
  | 0 => x0
  | (k+1) => ySeq α x0 g (k+1) - α • g (k+1)

lemma ySeq_zero (α : ℝ) (x0 : M) (g : ℕ → M) : ySeq α x0 g 0 = x0 := rfl

lemma ySeq_one (α : ℝ) (x0 : M) (g : ℕ → M) : ySeq α x0 g 1 = x0 := rfl

lemma xSeq_succ (α : ℝ) (x0 : M) (g : ℕ → M) (k : ℕ) :
    xSeq α x0 g (k+1) = ySeq α x0 g (k+1) - α • g (k+1) := rfl

/-- The loop body of `wc_ppm` (source line 81), stated exactly as written in
the code: `y[j+2] = x[j+1] + j/(j+2) * (x[j+1] - x[j]) - j/(j+2) * (x[j] - y[j])`. -/
lemma ySeq_code (α : ℝ) (x0 : M) (g : ℕ → M) (j : ℕ) :
    ySeq α x0 g (j+2) =
      xSeq α x0 g (j+1)
        + ((j : ℝ)/((j : ℝ)+2)) • (xSeq α x0 g (j+1) - xSeq α x0 g j)
        - ((j : ℝ)/((j : ℝ)+2)) • (xSeq α x0 g j - ySeq α x0 g j) := by
  cases j with
  | zero => simp [ySeq, xSeq]
  | succ m => simp [ySeq, xSeq]

/-! ## The accelerated proximal point bound (claim C1)

The loop of `wc_ppm` is Kim's accelerated proximal point method; written in
Halpern form, the iterate `y (k+1)` satisfies a first-order recurrence in
`y` and `x`. The worst-case bound `‖x n - y n‖² ≤ ‖x0 - x*‖² / n²` then
follows from a decreasing potential, using only the monotonicity
interpolation inequalities between consecutive proximal calls and between
the last call and the stationary point. -/

/-- Halpern form of the `wc_ppm` recursion, with denominators cleared:
`(k+1) • y (k+1) = x0 + 2k • x k - k • y k` for every `k`. -/
lemma ySeq_halpern (α : ℝ) (x0 : M) (g : ℕ → M) :
    ∀ k : ℕ, ((k : ℝ)+1) • ySeq α x0 g (k+1)
      = x0 + (2*(k : ℝ)) • xSeq α x0 g k - (k : ℝ) • ySeq α x0 g k := by
  intro k
  induction k with
  | zero => simp [ySeq, xSeq]
  | succ k IH =>
      have hc : ((k : ℝ)+2) ≠ 0 := by positivity
      have hmul : ((k : ℝ)+2) * ((k : ℝ)/((k : ℝ)+2)) = (k : ℝ) := by
        field_simp
      have hR : ((k : ℝ)+2) • ySeq α x0 g (k+2)
          = (2*(k : ℝ)+2) • xSeq α x0 g (k+1)
            - (2*(k : ℝ)) • xSeq α x0 g k + (k : ℝ) • ySeq α x0 g k := by
        rw [ySeq_code, smul_sub, smul_add, smul_smul, smul_smul, hmul]
        module
      push_cast
      have h11 : (k : ℝ) + 1 + 1 = (k : ℝ) + 2 := by ring
      have h21 : 2*((k : ℝ) + 1) = 2*(k : ℝ) + 2 := by ring
      rw [h11, h21, show k+1+1 = k+2 from rfl, hR, IH]
      module

variable {V : Type} [NormedAddCommGroup V] [InnerProductSpace ℝ V]

/-- Algebraic core of the potential descent: an exact inner-product identity
between consecutive potential values, with the next Halpern iterate written
out explicitly. Here `A` is the initial point, `B` the current `y` iterate,
`G1`/`G2` the gradients of the current and next proximal calls, and `c` the
(real) loop counter. -/
lemma inner_key (A B G1 G2 : V) (α c : ℝ) (hc : c + 2 ≠ 0) :
    ((c+1)*(c+2)/2) * ‖(2*α) • G2‖^2
      + (c+2) * ⟪(2*α) • G2, (((c+2)⁻¹ • (A + (2*c+2) • (B - α • G1) - (c+1) • B)) - A)⟫
    = (c*(c+1)/2) * ‖(2*α) • G1‖^2 + (c+1) * ⟪(2*α) • G1, B - A⟫
      - (2*α*(c+1)*(c+2)) *
        ⟪G2 - G1, (((c+2)⁻¹ • (A + (2*c+2) • (B - α • G1) - (c+1) • B)) - α • G2) - (B - α • G1)⟫ := by
  simp only [← real_inner_self_eq_norm_sq]
  simp only [inner_sub_left, inner_sub_right, inner_add_left, inner_add_right,
    real_inner_smul_left, real_inner_smul_right]
  simp only [real_inner_comm B A, real_inner_comm G1 A, real_inner_comm G2 A,
    real_inner_comm G1 B, real_inner_comm G2 B, real_inner_comm G2 G1]
  field_simp
  ring

/-- Scaled residual of the `k`-th Halpern step: `r k = 2α • g (k+1)`, which
equals `z k - T z k` for the reflected resolvent `T`. -/
noncomputable def rSeq (α : ℝ) (g : ℕ → V) (k : ℕ) : V := (2*α) • g (k+1)

/-- Lyapunov potential for the Halpern form of the `wc_ppm` iteration. -/
noncomputable def potential (α : ℝ) (x0 : V) (g : ℕ → V) (k : ℕ) : ℝ :=
  ((k : ℝ)*((k : ℝ)+1)/2) * ‖rSeq α g k‖^2
    + ((k : ℝ)+1) * ⟪rSeq α g k, ySeq α x0 g (k+1) - x0⟫

/-- One step of the potential is exactly a nonnegative multiple of the
monotonicity interpolation inequality between consecutive proximal calls. -/
lemma potential_step (α : ℝ) (x0 : V) (g : ℕ → V) (k : ℕ) :
    potential α x0 g (k+1) = potential α x0 g k
      - (2*α*((k : ℝ)+1)*((k : ℝ)+2)) *
          ⟪g (k+2) - g (k+1), xSeq α x0 g (k+2) - xSeq α x0 g (k+1)⟫ := by
  have hc : ((k : ℝ)+2) ≠ 0 := by positivity
  have hY : ySeq α x0 g (k+2)
      = ((k : ℝ)+2)⁻¹ • (x0 + (2*(k : ℝ)+2) • (ySeq α x0 g (k+1) - α • g (k+1))
          - ((k : ℝ)+1) • ySeq α x0 g (k+1)) := by
    have h := ySeq_halpern α x0 g (k+1)
    rw [xSeq_succ] at h
    push_cast at h
    have h11 : (k : ℝ) + 1 + 1 = (k : ℝ) + 2 := by ring
    have h21 : 2*((k : ℝ) + 1) = 2*(k : ℝ) + 2 := by ring
    rw [h11, h21, show k+1+1 = k+2 from rfl] at h
    rw [← h, inv_smul_smul₀ hc]
  have hkey := inner_key x0 (ySeq α x0 g (k+1)) (g (k+1)) (g (k+2)) α (k : ℝ) hc
  rw [potential, potential, rSeq, rSeq, show k+1+1 = k+2 from rfl,
    xSeq_succ, xSeq_succ, hY]
  push_cast
  have h11 : (k : ℝ) + 1 + 1 = (k : ℝ) + 2 := by ring
  rw [h11]
  linear_combination hkey

/-- Point component of the recorded oracle calls of `wc_ppm`: call `0` is the
stationary-point call at `x*` (source line 68), call `k+1` is the `(k+1)`-th
proximal call at `x (k+1)` (source lines 80, 82). -/
noncomputable def ppmCallX (α : ℝ) (xstar x0 : V) (g : ℕ → V) : ℕ → V
  | 0 => xstar
  | (k+1) => xSeq α x0 g (k+1)

/-- Gradient component of the recorded oracle calls of `wc_ppm`: the
stationary-point call carries the zero gradient (spec section 4.3), the
`(k+1)`-th proximal call carries the fresh atom `g (k+1)`. -/
noncomputable def ppmCallG (g : ℕ → V) : ℕ → V
  | 0 => 0
  | (k+1) => g (k+1)

/-- Modelled from the spec: the feasible set of the SDP compiled by
`wc_ppm`, in vector form. It consists of the monotone-operator interpolation
inequalities `⟨g_i - g_j, x_i - x_j⟩ ≥ 0` over all ordered pairs of the
`n+1` recorded calls (spec section 4.3, "Monotone operator") together with
the initial condition `‖x0 - x*‖² ≤ 1` (source line 74); the resolvent
equalities `x k + α • g k = y k` hold by construction of `xSeq`. -/
noncomputable def ppmFeasible (α : ℝ) (n : ℕ) (xstar x0 : V) (g : ℕ → V) : Prop :=
  (∀ i, i ≤ n → ∀ j, j ≤ n →
      0 ≤ ⟪ppmCallG g i - ppmCallG g j, ppmCallX α xstar x0 g i - ppmCallX α xstar x0 g j⟫)
    ∧ ‖x0 - xstar‖^2 ≤ 1

lemma potential_nonpos (α : ℝ) (n : ℕ) (xstar x0 : V) (g : ℕ → V)
    (hα : 0 < α) (feas : ppmFeasible α n xstar x0 g) :
    ∀ m, m + 1 ≤ n → potential α x0 g m ≤ 0 := by
  intro m
  induction m with
  | zero =>
      intro _
      simp [potential, rSeq, ySeq_one]
  | succ m IH =>
      intro hm
      have hmono : 0 ≤ ⟪g (m+2) - g (m+1), xSeq α x0 g (m+2) - xSeq α x0 g (m+1)⟫ := by
        have h := feas.1 (m+2) hm (m+1) (by omega)
        simpa [ppmCallG, ppmCallX] using h
      have hcoef : 0 ≤ 2*α*((m : ℝ)+1)*((m : ℝ)+2) := by positivity
      have hstep := potential_step α x0 g m
      have hIH := IH (by omega)
      nlinarith [mul_nonneg hcoef hmono]

/-- Worst-case bound for the accelerated proximal point method: every
configuration in the feasible set of the SDP compiled by `wc_ppm` has
performance metric `‖x n - y n‖² ≤ 1/n²`. -/
theorem ppm_metric_bound (α : ℝ) (n : ℕ) (xstar x0 : V) (g : ℕ → V)
    (hα : 0 < α) (hn : 1 ≤ n) (feas : ppmFeasible α n xstar x0 g) :
    ‖xSeq α x0 g n - ySeq α x0 g n‖^2 ≤ 1/(n : ℝ)^2 := by
  obtain ⟨N, rfl⟩ : ∃ N, n = N + 1 := ⟨n - 1, (Nat.succ_pred_eq_of_pos hn).symm⟩
  have hpot : potential α x0 g N ≤ 0 :=
    potential_nonpos α (N+1) xstar x0 g hα feas N le_rfl
  have hstar : 0 ≤ ⟪g (N+1), xSeq α x0 g (N+1) - xstar⟫ := by
    have h := feas.1 (N+1) le_rfl 0 (Nat.zero_le _)
    simpa [ppmCallG, ppmCallX] using h
  have hy : ySeq α x0 g (N+1) = xSeq α x0 g (N+1) + α • g (N+1) := by
    rw [xSeq_succ]; abel
  have hsub : ⟪rSeq α g N, ySeq α x0 g (N+1) - x0⟫
      = ⟪rSeq α g N, ySeq α x0 g (N+1) - xstar⟫ - ⟪rSeq α g N, x0 - xstar⟫ := by
    rw [← inner_sub_right]
    congr 1
    abel
  have hstar2 : 1/2 * ‖rSeq α g N‖^2 ≤ ⟪rSeq α g N, ySeq α x0 g (N+1) - xstar⟫ := by
    have hgg : ⟪g (N+1), g (N+1)⟫ = ‖g (N+1)‖^2 := real_inner_self_eq_norm_sq _
    have hr : ‖(2*α) • g (N+1)‖^2 = (2*α)^2 * ‖g (N+1)‖^2 := by
      rw [norm_smul, Real.norm_eq_abs, abs_of_pos (by linarith : (0:ℝ) < 2*α)]
      ring
    have hrw : ySeq α x0 g (N+1) - xstar
        = (xSeq α x0 g (N+1) - xstar) + α • g (N+1) := by
      rw [hy]; abel
    rw [rSeq, hrw, inner_add_right, real_inner_smul_left, real_inner_smul_left,
      real_inner_smul_right, hgg, hr]
    nlinarith [mul_nonneg (le_of_lt hα) hstar]
  have hCS : ⟪rSeq α g N, x0 - xstar⟫ ≤ ‖rSeq α g N‖ * ‖x0 - xstar‖ :=
    real_inner_le_norm _ _
  have ht : (0 : ℝ) ≤ ‖rSeq α g N‖ := norm_nonneg _
  have hd : (0 : ℝ) ≤ ‖x0 - xstar‖ := norm_nonneg _
  have hd1 : ‖x0 - xstar‖^2 ≤ 1 := feas.2
  have hN : (0 : ℝ) ≤ (N : ℝ) := Nat.cast_nonneg N
  have hpot' : ((N : ℝ)*((N : ℝ)+1)/2) * ‖rSeq α g N‖^2
      + ((N : ℝ)+1) * (⟪rSeq α g N, ySeq α x0 g (N+1) - xstar⟫
          - ⟪rSeq α g N, x0 - xstar⟫) ≤ 0 := by
    rw [← hsub]
    exact hpot
  have h3' : ((N : ℝ)+1) * (1/2 * ‖rSeq α g N‖^2)
      ≤ ((N : ℝ)+1) * ⟪rSeq α g N, ySeq α x0 g (N+1) - xstar⟫ :=
    mul_le_mul_of_nonneg_left hstar2 (by linarith)
  have h4' : ((N : ℝ)+1) * ⟪rSeq α g N, x0 - xstar⟫
      ≤ ((N : ℝ)+1) * (‖rSeq α g N‖ * ‖x0 - xstar‖) :=
    mul_le_mul_of_nonneg_left hCS (by linarith)
  have hkey2 : (((N : ℝ)+1)^2) * ‖rSeq α g N‖^2
      ≤ 2*(((N : ℝ)+1) * (‖rSeq α g N‖ * ‖x0 - xstar‖)) := by
    nlinarith [hpot', h3', h4']
  have hxy : xSeq α x0 g (N+1) - ySeq α x0 g (N+1) = -(α • g (N+1)) := by
    rw [xSeq_succ]; abel
  have hhalf : ‖xSeq α x0 g (N+1) - ySeq α x0 g (N+1)‖ = ‖rSeq α g N‖/2 := by
    rw [hxy, norm_neg, rSeq, norm_smul, norm_smul, Real.norm_eq_abs,
      Real.norm_eq_abs, abs_of_pos hα, abs_of_pos (by linarith : (0:ℝ) < 2*α)]
    ring
  have hcast : ((N + 1 : ℕ) : ℝ) = (N : ℝ) + 1 := by push_cast; ring
  rw [hhalf, hcast, div_pow, div_le_div_iff₀ (by norm_num) (by positivity)]
  nlinarith [hkey2, sq_nonneg (((N : ℝ)+1) * ‖rSeq α g N‖ - 2*‖x0 - xstar‖),
    hd1, ht, hd, hN]

/-- Modelled from the spec: the set of values of the performance metric
`‖x n - y n‖²` (source line 85) over the feasible set of the compiled SDP.
A PSD Gram matrix of size `n+2` (one row per fundamental basis Point, spec
section 4.5) is exactly the Gram matrix of `n+2`-dimensional vectors, so
feasible Gram matrices are represented by vector configurations in
`EuclideanSpace ℝ (Fin (n+2))`. -/
noncomputable def ppmValueSet (α : ℝ) (n : ℕ) : Set ℝ :=
  {t | ∃ xstar x0 : EuclideanSpace ℝ (Fin (n+2)), ∃ g : ℕ → EuclideanSpace ℝ (Fin (n+2)),
    ppmFeasible α n xstar x0 g ∧ t = ‖xSeq α x0 g n - ySeq α x0 g n‖^2}

/-- Modelled from the spec: `wc_ppm(alpha, n)` returns the pair
`(pepit_tau, theoretical_tau)` where `pepit_tau` is the optimal value of the
compiled SDP ("on `optimal` status decodes the objective value as τ", spec
section 4.5; the worst case is "the largest value the performance metric can
take", spec glossary) and `theoretical_tau = 1/n**2` (source line 91). -/
noncomputable def wcPpmReturns (α : ℝ) (n : ℕ) (out : ℝ × ℝ) : Prop :=
  IsLUB (ppmValueSet α n) out.1 ∧ out.2 = 1/(n : ℝ)^2

/-- C1: for every step size `alpha > 0` and every iteration count `n ≥ 1`,
the first element of the tuple returned by `wc_ppm(alpha, n)` is at most the
theoretical bound `1/n²` plus any nonnegative solver tolerance, and the
second element of the returned tuple equals `1/n²` exactly. -/
theorem wc_ppm_output_le_theoretical (α tol : ℝ) (n : ℕ) (out : ℝ × ℝ)
    (hα : 0 < α) (hn : 1 ≤ n) (htol : 0 ≤ tol) (hout : wcPpmReturns α n out) :
    out.1 ≤ 1/(n : ℝ)^2 + tol ∧ out.2 = 1/(n : ℝ)^2 := by
  refine ⟨?_, hout.2⟩
  have hub : 1/(n : ℝ)^2 ∈ upperBounds (ppmValueSet α n) := by
    rintro t ⟨xstar, x0, g, feas, rfl⟩
    exact ppm_metric_bound α n xstar x0 g hα hn feas
  have h := hout.1.2 hub
  linarith

/-- Feasible configuration attaining the worst case for `α = 1`, `n = 1`. -/
lemma ppmValueSet_one_one_mem : (1 : ℝ) ∈ ppmValueSet 1 1 := by
  refine ⟨0, EuclideanSpace.single 0 1, fun _ => EuclideanSpace.single 0 1, ⟨?_, ?_⟩, ?_⟩
  · intro i hi j hj
    have hX : ∀ i, i ≤ 1 → ppmCallX 1 (0 : EuclideanSpace ℝ (Fin 3))
        (EuclideanSpace.single 0 1) (fun _ => EuclideanSpace.single 0 1) i = 0 := by
      intro i hi
      interval_cases i
      · rfl
      · show xSeq 1 (EuclideanSpace.single 0 1) (fun _ => EuclideanSpace.single 0 1) 1 = 0
        simp [xSeq, ySeq]
    rw [hX i hi, hX j hj, sub_zero, inner_zero_right]
  · simp [EuclideanSpace.norm_single]
  · show (1 : ℝ) = ‖xSeq 1 (EuclideanSpace.single 0 1) (fun _ => EuclideanSpace.single 0 1) 1
      - ySeq 1 (EuclideanSpace.single 0 1) (fun _ => EuclideanSpace.single 0 1) 1‖^2
    simp [xSeq, ySeq, EuclideanSpace.norm_single]

lemma wcPpmReturns_one_one : wcPpmReturns 1 1 (1, 1) := by
  constructor
  · refine IsGreatest.isLUB ⟨ppmValueSet_one_one_mem, ?_⟩
    rintro t ⟨xstar, x0, g, feas, rfl⟩
    have h := ppm_metric_bound 1 1 xstar x0 g one_pos le_rfl feas
    simpa using h
  · norm_num

/-- Witness for C1 at `alpha = 1`, `n = 1`, tolerance `0`. -/
theorem wc_ppm_output_le_theoretical_witness :
    (0:ℝ) < 1 ∧ (1 ≤ 1) ∧ (0:ℝ) ≤ 0 ∧ wcPpmReturns 1 1 (1, 1) ∧
      (((1 : ℝ), (1 : ℝ)).1 ≤ 1/((1:ℕ) : ℝ)^2 + 0 ∧ ((1 : ℝ), (1 : ℝ)).2 = 1/((1:ℕ) : ℝ)^2) :=
  ⟨one_pos, le_rfl, le_rfl, wcPpmReturns_one_one,
    wc_ppm_output_le_theoretical 1 0 1 (1, 1) one_pos le_rfl le_rfl wcPpmReturns_one_one⟩

/-! ## The PEP problem state and its operations

Modelled from the spec, sections 3, 4.3 and 4.4: a `FunctionOracle` owns an
ordered list of recorded calls `(point, returned gradient, returned value or
none)`; the problem owns the basis registry (here: the number of atoms and of
scalar function-value variables allocated so far) and the initial-condition
constraint group. Both examples declare exactly one function, so the state
tracks a single call list. -/

/-- Modelled from the spec: one recorded oracle call
`(point, returned_gradient/subgradient_point, returned_value_or_none)`
(spec section 3, "FunctionOracle"). -/
structure OracleCall where
  x : Pt
  g : Pt
  fval : Option ℕ

/-- Modelled from the spec: the state of one PEP problem: the basis registry
(count of fundamental basis atoms and of scalar function-value variables) and
the recorded data (spec sections 3, 4.4). -/
structure PEPState where
  nbAtoms : ℕ
  nbScalars : ℕ
  calls : List OracleCall
  initConditions : List ((Sym2 ℕ → ℝ) × ℝ)

/-- Fresh problem, as created by `PEP()` (source line 62 / 75). -/
def PEPState.empty : PEPState := ⟨0, 0, [], []⟩

/-- Modelled from the spec: `stationary_point` "creates a call with gradient
fixed to the zero Point and — for operators — no value term" and "an
unconstrained function value" for functions (spec sections 3, 4.3); it
allocates one fresh basis atom for the point. -/
noncomputable def stationaryPointOp (hasValue : Bool) (s : PEPState) : Pt × PEPState :=
  (atom s.nbAtoms,
    { nbAtoms := s.nbAtoms + 1
      nbScalars := s.nbScalars + (if hasValue then 1 else 0)
      calls := s.calls ++ [⟨atom s.nbAtoms, 0, if hasValue then some s.nbScalars else none⟩]
      initConditions := s.initConditions })

/-- Modelled from the spec: `set_initial_point()` "creates a fresh fundamental
Point with no prior constraints" (spec section 4.4). -/
noncomputable def setInitialPointOp (s : PEPState) : Pt × PEPState :=
  (atom s.nbAtoms, { s with nbAtoms := s.nbAtoms + 1 })

/-- Modelled from the spec: `set_initial_condition(constraint)` "records a
Constraint in the initial condition group" (spec section 4.4); the constraint
is carried as its Gram-lowered form `lhs ≤ rhs`. -/
def setInitialConditionOp (c : (Sym2 ℕ → ℝ) × ℝ) (s : PEPState) : PEPState :=
  { s with initConditions := s.initConditions ++ [c] }

/-- Modelled from the spec: an oracle call `evaluate(point) -> (gradient,
value)` on a function: it creates a fresh gradient atom and a fresh scalar
value variable and appends the call record (spec sections 4.3, 6). -/
noncomputable def oracleOp (p : Pt) (s : PEPState) : (Pt × ℕ) × PEPState :=
  ((atom s.nbAtoms, s.nbScalars),
    { nbAtoms := s.nbAtoms + 1
      nbScalars := s.nbScalars + 1
      calls := s.calls ++ [⟨p, atom s.nbAtoms, some s.nbScalars⟩]
      initConditions := s.initConditions })

/-- Modelled from the spec: `proximal_step(y, A, alpha)` is "a derived
construction that, given an operator A and step size α, returns
`x = (I+αA)^{-1} y` by creating a fresh oracle call on A whose gradient
component satisfies `x + α·g = y`, returning the triple (x, g, —)" (spec
section 4.3): the fresh atom is the gradient `g`, the returned point is
`x = y - α • g`, and the value slot is empty (operators have no scalar value
basis). -/
noncomputable def proximalStep (y : Pt) (α : ℝ) (s : PEPState) :
    (Pt × Pt × Option ℕ) × PEPState :=
  ((y - α • atom s.nbAtoms, atom s.nbAtoms, none),
    { s with
      nbAtoms := s.nbAtoms + 1
      calls := s.calls ++ [⟨y - α • atom s.nbAtoms, atom s.nbAtoms, none⟩] })

/-- Modelled from the spec: the interpolation-constraint index set emitted at
finalize-time for one FunctionOracle: one constraint per ordered pair `(i, j)`
of distinct recorded calls, "for every ordered pair of distinct calls"
(spec sections 4.3, 8); for the monotone class the `(i, j)` constraint is
`⟨g_i - g_j, x_i - x_j⟩ ≥ 0`, for the (smooth) convex classes the
class-appropriate inequality — in every case one constraint per ordered
pair. -/
def interpPairs (calls : List OracleCall) : Finset (ℕ × ℕ) :=
  (Finset.range calls.length).offDiag

/-- Number of interpolation constraints generated from a call list. -/
def interpCount (calls : List OracleCall) : ℕ := (interpPairs calls).card

lemma interpCount_eq (calls : List OracleCall) :
    interpCount calls = calls.length * calls.length - calls.length := by
  rw [interpCount, interpPairs, Finset.offDiag_card, Finset.card_range]

/-- Modelled from the spec: the per-group constraint counts printed by
`solve` before invoking the solver ("optionally prints constraint counts per
group and per function", spec section 4.4): the number of initial conditions
and the number of interpolation constraints of the (single) function. -/
def solveReport (s : PEPState) : ℕ × ℕ := (s.initConditions.length, interpCount s.calls)

/-- Symbolic `y` iterates of `wc_ppm` over the Point algebra: the initial
point is atom `1` (atom `0` is the stationary point) and the gradient of the
`k`-th proximal call is atom `k+1`. -/
noncomputable def ppmSymY (α : ℝ) (k : ℕ) : Pt :=
  ySeq α (atom 1) (fun j => atom (j+1)) k

/-- Proximal-call phase of `wc_ppm`: `m` proximal steps, the `k`-th performed
at the symbolic iterate `y k` (source lines 79-82: the loop calls
`proximal_step(y[i+1], A, alpha)` for `i = 0, ..., n-2` and line 82 calls
`proximal_step(y[n], A, alpha)`, so the calls are at `y 1, ..., y n`; for
`n = 0` the single call is at `y[0] = x0`, which has the same Point value as
`y 1`). -/
noncomputable def ppmProxPhase (α : ℝ) : ℕ → PEPState → PEPState
  | 0, s => s
  | (k+1), s => (proximalStep (ppmSymY α (k+1)) α (ppmProxPhase α k s)).2

/-- Translation of the problem-building phase of `wc_ppm` (source lines
62-85): instantiate, record the stationary point of the monotone operator,
the initial point, the initial condition `(x0 - xs)**2 ≤ 1`, and the
`(n-1) + 1` proximal calls (`n-1` loop iterations — none when `n = 0`, like
Python's `range(0, n - 1)` — plus the final call of line 82). -/
noncomputable def ppmState (α : ℝ) (n : ℕ) : PEPState :=
  let r1 := stationaryPointOp false PEPState.empty
  let xs := r1.1
  let r2 := setInitialPointOp r1.2
  let x0 := r2.1
  let s3 := setInitialConditionOp (gramLower (x0 - xs) (x0 - xs), 1) r2.2
  ppmProxPhase α ((n - 1) + 1) s3

/-- Translation of the problem-building phase of
`wc_gradient_descent_lyapunov_1` (source lines 75-97): instantiate, record
the stationary point of the smooth convex function (with its function value
`fs`; the subsequent `func.value(xs)` looks that value up and records no new
call), the initial point `xn`, the oracle call at `xn`, and the oracle call
at `xnp1 = xn - γ • gn`. No initial condition is set. -/
noncomputable def lyapState (L γ : ℝ) (n : ℕ) : PEPState :=
  let r1 := stationaryPointOp true PEPState.empty
  let r2 := setInitialPointOp r1.2
  let xn := r2.1
  let r3 := oracleOp xn r2.2
  let gn := r3.1.1
  let xnp1 := xn - γ • gn
  (oracleOp xnp1 r3.2).2

lemma ppmProxPhase_nbAtoms (α : ℝ) (m : ℕ) (s : PEPState) :
    (ppmProxPhase α m s).nbAtoms = s.nbAtoms + m := by
  induction m with
  | zero => rfl
  | succ m IH => simp [ppmProxPhase, proximalStep, IH]; omega

lemma ppmProxPhase_calls_length (α : ℝ) (m : ℕ) (s : PEPState) :
    (ppmProxPhase α m s).calls.length = s.calls.length + m := by
  induction m with
  | zero => rfl
  | succ m IH => simp [ppmProxPhase, proximalStep, IH]; omega

lemma ppmProxPhase_initConditions (α : ℝ) (m : ℕ) (s : PEPState) :
    (ppmProxPhase α m s).initConditions = s.initConditions := by
  induction m with
  | zero => rfl
  | succ m IH => simp [ppmProxPhase, proximalStep, IH]

lemma ppmState_nbAtoms (α : ℝ) (n : ℕ) :
    (ppmState α n).nbAtoms = 2 + ((n - 1) + 1) := by
  rw [ppmState]
  rw [ppmProxPhase_nbAtoms]
  rfl

lemma ppmState_calls_length (α : ℝ) (n : ℕ) :
    (ppmState α n).calls.length = 1 + ((n - 1) + 1) := by
  rw [ppmState]
  rw [ppmProxPhase_calls_length]
  rfl

lemma lyapState_fields (L γ : ℝ) (n : ℕ) :
    (lyapState L γ n).nbAtoms = 4 ∧ (lyapState L γ n).calls.length = 3
      ∧ (lyapState L γ n).initConditions = [] := by
  refine ⟨rfl, ?_, rfl⟩
  simp [lyapState, oracleOp, setInitialPointOp, stationaryPointOp, PEPState.empty]

/-- Modelled from the spec: the size of the PSD Gram-matrix variable of the
compiled SDP: "one symmetric PSD matrix variable G sized to the number of
fundamental basis Points" (spec section 4.5). -/
def gramSize (s : PEPState) : ℕ := s.nbAtoms

/-- C2: `N` recorded calls yield exactly `N·(N−1)` ordered-pair interpolation
constraints, independently of call order, the stationary-point call counting
as an ordinary call: `wc_ppm(alpha, n)` records `n+1` calls giving
`(n+1)·n` constraints (110 for `n = 10`), and
`wc_gradient_descent_lyapunov_1` records 3 calls giving 6 constraints. -/
theorem interpolation_constraint_counts (α L γ : ℝ) (n : ℕ) (hn : 1 ≤ n) :
    interpCount (ppmState α n).calls = (n+1)*n
      ∧ interpCount (ppmState α 10).calls = 110
      ∧ interpCount (lyapState L γ n).calls = 6
      ∧ ∀ l₁ l₂ : List OracleCall, l₁.Perm l₂ → interpCount l₁ = interpCount l₂ := by
  have hgen : ∀ m : ℕ, 1 ≤ m → interpCount (ppmState α m).calls = (m+1)*m := by
    intro m hm
    rw [interpCount_eq, ppmState_calls_length]
    have h1 : (m - 1) + 1 = m := by omega
    rw [h1]
    have h2 : (1 + m) * (1 + m) = (m+1)*m + (1 + m) := by ring
    omega
  refine ⟨hgen n hn, ?_, ?_, ?_⟩
  · simpa using hgen 10 (by norm_num)
  · simp [interpCount_eq, (lyapState_fields L γ n).2.1]
  · intro l₁ l₂ hperm
    rw [interpCount_eq, interpCount_eq, hperm.length_eq]

/-- Witness for C2 at `alpha = 2`, `L = 1`, `gamma = 1`, `n = 10`. -/
theorem interpolation_constraint_counts_witness :
    1 ≤ 10
      ∧ (interpCount (ppmState 2 10).calls = (10+1)*10
          ∧ interpCount (ppmState 2 10).calls = 110
          ∧ interpCount (lyapState 1 1 10).calls = 6
          ∧ ∀ l₁ l₂ : List OracleCall, l₁.Perm l₂ → interpCount l₁ = interpCount l₂) :=
  ⟨by norm_num, interpolation_constraint_counts 2 1 1 10 (by norm_num)⟩

/-- C3: the PSD Gram-matrix variable has one row/column per fundamental basis
Point: size `(n+2) × (n+2)` for `wc_ppm(alpha, n)` (12×12 for `n = 10`:
stationary point, initial point, and one fresh operator-output atom per
proximal step) and `4 × 4` for `wc_gradient_descent_lyapunov_1` for every
`n`. -/
theorem gram_matrix_sizes (α L γ : ℝ) (n : ℕ) (hn : 1 ≤ n) :
    gramSize (ppmState α n) = n + 2 ∧ gramSize (ppmState α 10) = 12
      ∧ gramSize (lyapState L γ n) = 4 := by
  refine ⟨?_, ?_, (lyapState_fields L γ n).1⟩
  · rw [gramSize, ppmState_nbAtoms]; omega
  · rw [gramSize, ppmState_nbAtoms]

/-- Witness for C3 at `alpha = 2`, `L = 1`, `gamma = 1`, `n = 10`. -/
theorem gram_matrix_sizes_witness :
    1 ≤ 10 ∧ (gramSize (ppmState 2 10) = 10 + 2 ∧ gramSize (ppmState 2 10) = 12
      ∧ gramSize (lyapState 1 1 10) = 4) :=
  ⟨by norm_num, gram_matrix_sizes 2 1 1 10 (by norm_num)⟩

/-- C4: `proximal_step(y, A, alpha)` returns a triple `(x, g, w)` of fresh
Points `x` and `g` recorded as a new oracle call on the operator, linked by
the equality `x + alpha • g = y`, and for a monotone operator the third
component carries no function value. -/
theorem proximalStep_resolvent_call (y : Pt) (α : ℝ) (s : PEPState) :
    (proximalStep y α s).1.1 + α • (proximalStep y α s).1.2.1 = y
      ∧ (proximalStep y α s).1.2.2 = none
      ∧ (proximalStep y α s).2.calls
          = s.calls ++ [⟨(proximalStep y α s).1.1, (proximalStep y α s).1.2.1, none⟩]
      ∧ (proximalStep y α s).1.2.1 = atom s.nbAtoms
      ∧ (proximalStep y α s).2.nbAtoms = s.nbAtoms + 1 := by
  refine ⟨?_, rfl, rfl, rfl, rfl⟩
  simp [proximalStep]

/-- C7: `wc_ppm` records exactly one initial-condition constraint, namely
`‖x0 - xs‖² ≤ 1` (in Gram-lowered form), while
`wc_gradient_descent_lyapunov_1` records none; the setup report of `solve`
counts 1 and 0 initial conditions respectively. -/
theorem initial_condition_groups (α L γ : ℝ) (n : ℕ) :
    (ppmState α n).initConditions
        = [(gramLower (atom 1 - atom 0) (atom 1 - atom 0), 1)]
      ∧ (lyapState L γ n).initConditions = []
      ∧ (solveReport (ppmState α n)).1 = 1
      ∧ (solveReport (lyapState L γ n)).1 = 0 := by
  have h1 : (ppmState α n).initConditions
      = [(gramLower (atom 1 - atom 0) (atom 1 - atom 0), 1)] := by
    rw [ppmState, ppmProxPhase_initConditions]
    rfl
  have h2 : (lyapState L γ n).initConditions = [] := (lyapState_fields L γ n).2.2
  refine ⟨h1, h2, ?_, ?_⟩
  · rw [solveReport, h1]
    rfl
  · rw [solveReport, h2]
    rfl

/-- C5: the inner product of `a • p + b • q` with itself expands to the
quadratic form `a²⟨p,p⟩ + 2ab⟨p,q⟩ + b²⟨q,q⟩` over Gram-matrix cells; in
particular the squared distances `(x0 - xs)**2` of `wc_ppm` (source line 74)
and `(xn - xs)**2` of `wc_gradient_descent_lyapunov_1` (source line 93),
with `xs = atom 0` and `x0`/`xn` `= atom 1` in both examples, lower to
coefficient `1` on `G[x0,x0]`, `-2` on the single symmetric cell `G[x0,xs]`
(the cell index identifies `(0,1)` and `(1,0)`), and `1` on `G[xs,xs]`. -/
theorem gram_quadratic_expansion :
    (∀ (p q : Pt) (a b : ℝ),
        gramLower (a • p + b • q) (a • p + b • q)
          = a^2 • gramLower p p + (2*(a*b)) • gramLower p q + b^2 • gramLower q q)
      ∧ gramLower (atom 1 - atom 0) (atom 1 - atom 0) (Sym2.mk (1, 1)) = 1
      ∧ gramLower (atom 1 - atom 0) (atom 1 - atom 0) (Sym2.mk (1, 0)) = -2
      ∧ gramLower (atom 1 - atom 0) (atom 1 - atom 0) (Sym2.mk (0, 0)) = 1
      ∧ Sym2.mk ((1 : ℕ), (0 : ℕ)) = Sym2.mk ((0 : ℕ), (1 : ℕ)) := by
  refine ⟨?_, ?_, ?_, ?_, ?_⟩
  · intro p q a b
    funext c
    induction c using Sym2.ind with
    | _ i j =>
        simp only [gramLower_mk, Pi.add_apply, Pi.smul_apply, smul_eq_mul,
          Finsupp.add_apply, Finsupp.smul_apply]
        by_cases h : i = j
        · simp only [if_pos h]
          ring
        · simp only [if_neg h]
          ring
  · rw [gramLower_mk]
    norm_num [atom, Finsupp.single_apply]
  · rw [gramLower_mk]
    norm_num [atom, Finsupp.single_apply]
  · rw [gramLower_mk]
    norm_num [atom, Finsupp.single_apply]
  · exact Sym2.eq_swap

/-- Modelled from the spec: the statuses an external conic solver can return:
"solve(program) -> {status ∈ {optimal, infeasible, unbounded, error}, ...}"
(spec section 6). -/
inductive SolverStatus where
  | optimal
  | infeasible
  | unbounded
  | numericalFailure
deriving DecidableEq

/-- Modelled from the spec: the decode step of `solve`: "on `optimal` status
decodes the objective value as τ; on infeasible/unbounded/numerical failure
it must surface a distinguishable status rather than silently returning a
number" (spec sections 4.5, 7). -/
def decodeSolverResult (st : SolverStatus) (val : ℝ) : Except SolverStatus ℝ :=
  match st with
  | .optimal => .ok val
  | st => .error st

/-- C6: `solve` surfaces infeasible/unbounded/numerical-failure statuses
distinguishably and never silently coerces them into a number: the decoded
result is a value exactly on `optimal` status, and otherwise is the error
carrying the status itself. -/
theorem solver_status_distinguishable (st : SolverStatus) (val : ℝ) :
    (st = .optimal → decodeSolverResult st val = .ok val)
      ∧ (st ≠ .optimal → decodeSolverResult st val = .error st)
      ∧ (∀ x, decodeSolverResult st val = .ok x → st = .optimal) := by
  refine ⟨?_, ?_, ?_⟩ <;> cases st <;> simp [decodeSolverResult]

/-- Witness for C6 at the `infeasible` status and at the `optimal` status. -/
theorem solver_status_distinguishable_witness :
    decodeSolverResult .infeasible 0 = .error .infeasible
      ∧ decodeSolverResult .optimal 0 = .ok 0 :=
  ⟨(solver_status_distinguishable .infeasible 0).2.1 (by decide),
    (solver_status_distinguishable .optimal 0).1 rfl⟩

/-! ## Run-level models of the two example functions

The external SDP solver is out of scope (spec section 1) and is modelled as a
function of the compiled problem state ("the engine must function correctly
regardless of which concrete solver backend answers this contract", spec
section 6); the value it returns depends only on the compiled problem, never
on the `verbose` flag, whose effect is "advisory, not load-bearing" printing
(spec section 4.4). -/

/-- Conclusion lines printed by `wc_ppm` (source lines 94-97). -/
inductive PpmLine where
  | header
  | pepitGuarantee
  | theoreticalGuarantee
deriving DecidableEq

/-- Conclusion lines printed by `wc_gradient_descent_lyapunov_1`
(source lines 110-117). -/
inductive LyapLine where
  | header
  | pepitGuarantee
  | theoreticalGuarantee
deriving DecidableEq

/-- Python exceptions relevant to these examples. -/
inductive PyError where
  | zeroDivisionError
deriving DecidableEq

/-- Phases of a `wc_ppm` run, in execution order. -/
inductive RunEvent where
  | sdpBuilt
  | sdpSolved
  | exceptionRaised
  | returned
deriving DecidableEq

/-- Translation of the top-level control flow of `wc_ppm` (source lines
61-100): build the problem, solve it, then compute
`theoretical_tau = 1 / n ** 2` — for `n = 0` Python's integer `n ** 2` is `0`
and the division raises `ZeroDivisionError`, after the SDP has been built and
solved; otherwise the pair `(pepit_tau, theoretical_tau)` is returned and,
when `verbose`, the two conclusion lines are printed after the header. -/
noncomputable def wcPpmRun (α : ℝ) (n : ℕ) (verbose : Bool) (solver : PEPState → ℝ) :
    List RunEvent × Except PyError (ℝ × ℝ) × List PpmLine :=
  let s := ppmState α n
  let pepitTau := solver s
  if n ^ 2 = 0 then
    ([RunEvent.sdpBuilt, RunEvent.sdpSolved, RunEvent.exceptionRaised],
      Except.error PyError.zeroDivisionError, [])
  else
    ([RunEvent.sdpBuilt, RunEvent.sdpSolved, RunEvent.returned],
      Except.ok (pepitTau, 1/(n : ℝ)^2),
      if verbose then [PpmLine.header, PpmLine.pepitGuarantee, PpmLine.theoreticalGuarantee]
      else [])

/-- Translation of the return/printing logic of
`wc_gradient_descent_lyapunov_1` (source lines 75-120): the returned pair is
`(pepit_tau, theoretical_tau)` with `theoretical_tau = 0.0` when
`gamma == 1/L` and `None` otherwise, and when `verbose` the
theoretical-guarantee line is printed only in the `gamma == 1/L` case
(source lines 115-117). -/
noncomputable def wcGradientDescentLyapunov (L γ : ℝ) (n : ℕ) (verbose : Bool)
    (solver : PEPState → ℝ) : (ℝ × Option ℝ) × List LyapLine :=
  let pepitTau := solver (lyapState L γ n)
  let theoreticalTau : Option ℝ := if γ = 1/L then some 0 else none
  ((pepitTau, theoreticalTau),
    if verbose then
      [LyapLine.header, LyapLine.pepitGuarantee]
        ++ (if γ = 1/L then [LyapLine.theoreticalGuarantee] else [])
    else [])

/-- C8: `wc_gradient_descent_lyapunov_1(L, gamma, n)` returns `0.0` as the
second element of its result exactly when `gamma = 1/L`, returns `None` for
every other `gamma`, and in the `None` case the verbose output omits the
theoretical-guarantee line. -/
theorem lyapunov_theoretical_value (L γ : ℝ) (n : ℕ) (verbose : Bool)
    (solver : PEPState → ℝ) (hL : L ≠ 0) :
    ((wcGradientDescentLyapunov L γ n verbose solver).1.2 = some 0 ↔ γ = 1/L)
      ∧ (γ ≠ 1/L → (wcGradientDescentLyapunov L γ n verbose solver).1.2 = none)
      ∧ (γ ≠ 1/L →
          LyapLine.theoreticalGuarantee ∉ (wcGradientDescentLyapunov L γ n verbose solver).2) := by
  by_cases h : γ = 1/L
  · refine ⟨by simp [wcGradientDescentLyapunov, h], fun hne => absurd h hne,
      fun hne => absurd h hne⟩
  · have h' : γ ≠ L⁻¹ := by
      rw [← one_div]
      exact h
    refine ⟨by simp [wcGradientDescentLyapunov, h, h'], fun _ => by
      simp [wcGradientDescentLyapunov, h, h'], fun _ => ?_⟩
    cases verbose <;> simp [wcGradientDescentLyapunov, h, h']

/-- Witness for C8 at `L = 1`, `gamma = 2`, `n = 10`, `verbose = true`, the
zero solver. -/
theorem lyapunov_theoretical_value_witness :
    (1 : ℝ) ≠ 0
      ∧ (((wcGradientDescentLyapunov 1 2 10 true (fun _ => 0)).1.2 = some 0 ↔ (2 : ℝ) = 1/1)
          ∧ ((2 : ℝ) ≠ 1/1 → (wcGradientDescentLyapunov 1 2 10 true (fun _ => 0)).1.2 = none)
          ∧ ((2 : ℝ) ≠ 1/1 →
              LyapLine.theoreticalGuarantee
                ∉ (wcGradientDescentLyapunov 1 2 10 true (fun _ => 0)).2)) :=
  ⟨by norm_num, lyapunov_theoretical_value 1 2 10 true (fun _ => 0) (by norm_num)⟩

/-- C9: `wc_ppm(alpha, n)` returns normally exactly for `n ≥ 1`; for `n = 0`
it raises `ZeroDivisionError` when computing `1 / n ** 2`, and this happens
after the SDP has been built and solved. -/
theorem wc_ppm_zero_division (α : ℝ) (n : ℕ) (verbose : Bool) (solver : PEPState → ℝ) :
    (1 ≤ n → (wcPpmRun α n verbose solver).2.1
        = Except.ok (solver (ppmState α n), 1/(n : ℝ)^2))
      ∧ (n = 0 → (wcPpmRun α n verbose solver).2.1 = Except.error PyError.zeroDivisionError
          ∧ (wcPpmRun α n verbose solver).1
              = [RunEvent.sdpBuilt, RunEvent.sdpSolved, RunEvent.exceptionRaised]) := by
  constructor
  · intro hn
    have h : ¬ n ^ 2 = 0 := by positivity
    simp [wcPpmRun, h]
  · rintro rfl
    exact ⟨rfl, rfl⟩

/-- Witness for C9 at `n = 0` and at `n = 3`. -/
theorem wc_ppm_zero_division_witness :
    ((wcPpmRun 1 0 true (fun _ => 0)).2.1 = Except.error PyError.zeroDivisionError
        ∧ (wcPpmRun 1 0 true (fun _ => 0)).1
            = [RunEvent.sdpBuilt, RunEvent.sdpSolved, RunEvent.exceptionRaised])
      ∧ (wcPpmRun 1 3 true (fun _ => 0)).2.1 = Except.ok (0, 1/((3 : ℕ) : ℝ)^2) :=
  ⟨(wc_ppm_zero_division 1 0 true (fun _ => 0)).2 rfl,
    (wc_ppm_zero_division 1 3 true (fun _ => 0)).1 (by norm_num)⟩

/-- C10: for both examples the returned value does not depend on the
`verbose` argument — two runs with the same remaining arguments and the same
solver backend return equal values; `verbose` only changes what is
printed. -/
theorem verbose_only_controls_printing (α L γ : ℝ) (n : ℕ) (solver : PEPState → ℝ) :
    (wcPpmRun α n true solver).2.1 = (wcPpmRun α n false solver).2.1
      ∧ (wcGradientDescentLyapunov L γ n true solver).1
          = (wcGradientDescentLyapunov L γ n false solver).1 := by
  constructor
  · by_cases h : n ^ 2 = 0 <;> simp [wcPpmRun, h]
  · rfl
